import Mathlib

/-!
Verification of the rtrv full-text search engine core against its
natural-language specification.

The definitions below are shallow embeddings of the C++ sources:
  * `Posting`, `SkipPointer`, `PostingList`, `PostingList.findSkipTarget`,
    `intersectWithSkips` — src/src/inverted_index.cpp
  * `InvertedIndex.addTermPL`, `InvertedIndex.addTerm` — src/src/inverted_index.cpp
  * `Tokenizer.simpleStem` — src/src/tokenizer.cpp
  * `TfIdfRanker` scoring — src/src/ranker.cpp
  * the top-K selection paths — src/src/search_engine.cpp, src/include/top_k_heap.hpp
  * snapshot save/load — src/src/persistence.cpp

Machine integers (uint64_t doc ids, uint32_t frequencies and positions,
size_t lengths) are modelled as `Nat`; none of the modelled code paths can
overflow them on the inputs considered.  `double` scores are modelled as
exact numbers (`ℚ` where only comparisons matter, `ℝ`/`EReal` for the
TF-IDF formula, with IEEE division by zero made explicit).
-/

namespace Rtrv

/-- A posting entry: `struct Posting` from inverted_index.hpp. -/
structure Posting where
  doc_id : Nat
  term_frequency : Nat
  positions : List Nat
deriving DecidableEq, Repr

/-- A skip pointer: `struct SkipPointer` from inverted_index.hpp. -/
structure SkipPointer where
  position : Nat
  doc_id : Nat
deriving DecidableEq, Repr

/-- A posting list with skip pointers: `class PostingList` from
inverted_index.hpp (the `skips_dirty_` flag is bookkeeping for lazy rebuild
and does not enter the functions modelled here, which all operate on a list
whose skip pointers are materialized). -/
structure PostingList where
  postings : List Posting
  skip_pointers : List SkipPointer
deriving DecidableEq, Repr

/-- The doc ids of a posting list, in list order. -/
def PostingList.docIds (l : PostingList) : List Nat :=
  l.postings.map Posting.doc_id

/-- `PostingList::findSkipTarget` (inverted_index.cpp, lines 40-61).
`std::lower_bound` over the skip pointers with comparator
`sp.doc_id < target` returns the first entry with `target ≤ doc_id`; on a
partitioned (in particular: ascending) range this is exactly
`List.findIdx (target ≤ ·.doc_id)`.  If that iterator is `begin()` the
function returns 0, otherwise the `position` of the entry just before it. -/
def PostingList.findSkipTarget (l : PostingList) (target : Nat) : Nat :=
  if l.skip_pointers.isEmpty then 0
  else
    let idx := l.skip_pointers.findIdx fun sp => target ≤ sp.doc_id
    if idx = 0 then 0
    else (l.skip_pointers.getD (idx - 1) ⟨0, 0⟩).position

/-- The value the specification text ascribes to `findSkipTarget`: the
position of the greatest skip pointer whose doc_id is ≤ target, or 0 when
none qualifies.  (Definition written from the spec's words, for comparison
with the source-derived `PostingList.findSkipTarget`.) -/
def PostingList.specSkipTarget (l : PostingList) (target : Nat) : Nat :=
  (((l.skip_pointers.filter fun sp => sp.doc_id ≤ target).getLast?).map
    SkipPointer.position).getD 0

/-- Skip-pointer validity: each skip pointer indexes into the postings and
carries the doc_id stored at that position (spec §3 invariant (iii)). -/
def PostingList.SkipsValid (l : PostingList) : Prop :=
  ∀ sp ∈ l.skip_pointers,
    ∃ h : sp.position < l.postings.length,
      (l.postings.get ⟨sp.position, h⟩).doc_id = sp.doc_id

/-- The two-cursor loop of `intersectWithSkips` (inverted_index.cpp,
lines 72-97), with cursors `i` into `list1` and `j` into `list2`.  When
the lagging side has skip pointers its cursor advances to
`max (cur+1) (findSkipTarget other)`, otherwise by one. -/
def intersectGo (l1 l2 : PostingList) (i j : Nat) : List Nat :=
  if h : i < l1.postings.length ∧ j < l2.postings.length then
    let d1 := (l1.postings.get ⟨i, h.1⟩).doc_id
    let d2 := (l2.postings.get ⟨j, h.2⟩).doc_id
    if d1 = d2 then
      d1 :: intersectGo l1 l2 (i + 1) (j + 1)
    else if d1 < d2 then
      intersectGo l1 l2
        (if l1.skip_pointers.isEmpty then i + 1
         else max (i + 1) (l1.findSkipTarget d2)) j
    else
      intersectGo l1 l2 i
        (if l2.skip_pointers.isEmpty then j + 1
         else max (j + 1) (l2.findSkipTarget d1))
  else
    []
termination_by (l1.postings.length - i) + (l2.postings.length - j)
decreasing_by
  · omega
  · split <;> omega
  · split <;> omega

/-- `intersectWithSkips(list1, list2)` (inverted_index.cpp, lines 65-100). -/
def intersectWithSkips (l1 l2 : PostingList) : List Nat :=
  intersectGo l1 l2 0 0

/-! ### Simple stemmer (src/src/tokenizer.cpp, `Tokenizer::simpleStem`) -/

def tionalSuf : List Char := "tional".toList
def tionSuf : List Char := "tion".toList
def ationalSuf : List Char := "ational".toList
def ateSuf : List Char := "ate".toList
def ionalSuf : List Char := "ional".toList
def ingSuf : List Char := "ing".toList
def edSuf : List Char := "ed".toList
def lySuf : List Char := "ly".toList

/-- `Tokenizer::simpleStem` (tokenizer.cpp, lines 582-610).  Each C++ test
`result.length() > k && result.substr(result.length()-k) == "..."` is
modelled as a length bound plus equality of the last `k` characters. -/
def Tokenizer.simpleStem (t : List Char) : List Char :=
  if t.length < 4 then t
  else if 6 < t.length ∧ t.drop (t.length - 6) = tionalSuf then
    t.take (t.length - 6) ++ tionSuf
  else if 7 < t.length ∧ t.drop (t.length - 7) = ationalSuf then
    t.take (t.length - 7) ++ ateSuf
  else if 5 < t.length ∧ t.drop (t.length - 5) = ionalSuf then
    t.take (t.length - 2)
  else if 3 < t.length ∧ t.drop (t.length - 3) = ingSuf then
    t.take (t.length - 3)
  else if 2 < t.length ∧ t.drop (t.length - 2) = edSuf then
    t.take (t.length - 2)
  else if 2 < t.length ∧ t.drop (t.length - 2) = lySuf then
    t.take (t.length - 2)
  else if 1 < t.length ∧ t.getD (t.length - 1) ' ' = 's' ∧
      t.getD (t.length - 2) ' ' ≠ 's' then
    t.take (t.length - 1)
  else t

/-! ### Inverted index `addTerm` (src/src/inverted_index.cpp, lines 108-134) -/

/-- The body of `InvertedIndex::addTerm` acting on one posting list:
`std::find_if` locates the first posting with the given doc id; if found,
its `term_frequency` is incremented and the position appended when
non-zero; otherwise a fresh posting with `tf = 1` (and the position, when
non-zero) is appended at the end (`addPosting` is a `push_back`). -/
def addTermPL : List Posting → Nat → Nat → List Posting
  | [], d, pos => [⟨d, 1, if 0 < pos then [pos] else []⟩]
  | p :: rest, d, pos =>
    if p.doc_id = d then
      ⟨d, p.term_frequency + 1,
        if 0 < pos then p.positions ++ [pos] else p.positions⟩ :: rest
    else
      p :: addTermPL rest d pos

/-- The term → posting-list map `index_` of `InvertedIndex`, as an
association list (the `std::unordered_map` iteration order plays no role
in the claims modelled; the map keeps one entry per key, which the
update below preserves since an entry is only appended when absent). -/
abbrev Index := List (String × List Posting)

/-- The posting list stored for a term, empty when the term is absent
(`InvertedIndex::getPostings`). -/
def lookupPL (idx : Index) (t : String) : List Posting :=
  ((idx.find? fun e => e.1 = t).map Prod.snd).getD []

/-- `InvertedIndex::addTerm(term, doc_id, position)`: `index_[term]`
creates an empty posting list when the term is absent, then the posting
list is updated in place. -/
def addTerm (idx : Index) (t : String) (d : Nat) (pos : Nat) : Index :=
  if idx.any fun e => e.1 = t then
    idx.map fun e => if e.1 = t then (t, addTermPL e.2 d pos) else e
  else
    idx ++ [(t, addTermPL [] d pos)]

/-- An arbitrary sequence of `addTerm(term, doc_id, position)` calls
replayed against an empty index. -/
def buildIndex (calls : List (String × Nat × Nat)) : Index :=
  calls.foldl (fun idx c => addTerm idx c.1 c.2.1 c.2.2) []

/-- Term frequency recorded for a doc id in a posting list: the
`term_frequency` of the first (in a well-formed list: the only) posting
with that doc id, 0 when absent. -/
def tfAt (pl : List Posting) (d : Nat) : Nat :=
  ((pl.find? fun p => p.doc_id = d).map Posting.term_frequency).getD 0

/-! ### Engine state and snapshots (search_engine.cpp, persistence.cpp) -/

/-- A stored document, reduced to what the modelled paths read: its id
and the token stream the tokenizer produced for its concatenated fields
(`indexDocumentInternal` tokenizes `doc.getAllText()`; the tokenizer is
taken as given here, the claims modelled do not depend on it). -/
structure Doc where
  id : Nat
  tokens : List String
deriving DecidableEq, Repr

/-- `documents_[doc_id] = doc`: insert-or-overwrite in the document
store (association list standing for the `std::unordered_map`). -/
def storePut (m : List (Nat × Doc)) (k : Nat) (v : Doc) : List (Nat × Doc) :=
  if m.any fun e => e.1 = k then
    m.map fun e => if e.1 = k then (k, v) else e
  else
    m ++ [(k, v)]

/-- Document lookup in the store. -/
def storeGet (m : List (Nat × Doc)) (k : Nat) : Option Doc :=
  (m.find? fun e => e.1 = k).map Prod.snd

/-- Engine state: the document store `documents_`, the inverted index
`index_`, and the id counter `next_doc_id_` (search_engine.hpp; the
counter starts at 1 in the constructor). -/
structure Engine where
  documents : List (Nat × Doc)
  index : Index
  next_doc_id : Nat
deriving DecidableEq, Repr

/-- The engine as constructed by `SearchEngine::SearchEngine`. -/
def Engine.empty : Engine := { documents := [], index := [], next_doc_id := 1 }

/-- `SearchEngine::indexDocumentInternal` (search_engine.cpp, lines
79-105), restricted to id assignment, index insertion and document
storage: the assigned id is `doc.id` when non-zero, else `next_doc_id_++`;
each token is added to the index at positions 0, 1, 2, …; the document is
stored under the assigned id.  Nothing advances `next_doc_id_` past a
caller-supplied id. -/
def indexDocumentInternal (e : Engine) (doc : Doc) : Nat × Engine :=
  let doc_id := if 0 < doc.id then doc.id else e.next_doc_id
  let next := if 0 < doc.id then e.next_doc_id else e.next_doc_id + 1
  let idx := doc.tokens.enum.foldl
    (fun acc pt => addTerm acc pt.2 doc_id pt.1) e.index
  (doc_id,
    { documents := storePut e.documents doc_id { id := doc_id, tokens := doc.tokens },
      index := idx, next_doc_id := next })

/-- The snapshot file contents, at the granularity the claims need:
the header's magic and version, the id counter, the document table, and
for each term its postings (doc_id, term_frequency, positions) —
`Persistence::save`, persistence.cpp lines 7-74. -/
structure SnapshotFile where
  magic : Nat
  version : Nat
  next_doc_id : Nat
  documents : List (Nat × Doc)
  terms : List (String × List Posting)
deriving DecidableEq, Repr

/-- The header constant `magic = 0x53454152` ("SEAR", persistence.hpp). -/
def snapshotMagic : Nat := 0x53454152

/-- `Persistence::save`: writes the default-initialized header (magic
0x53454152, version 1), `next_doc_id_`, the documents, and every term's
postings verbatim. -/
def save (e : Engine) : SnapshotFile :=
  { magic := snapshotMagic, version := 1, next_doc_id := e.next_doc_id,
    documents := e.documents, terms := e.index }

/-- The load-time index reconstruction (persistence.cpp, lines 133-163):
for every term and every posting, `addTerm(term, doc_id, pos)` is called
once per *stored position*; the stored `term_frequency` is read but never
used. -/
def replayIndex (terms : List (String × List Posting)) : Index :=
  terms.foldl (fun idx e =>
    e.2.foldl (fun idx p =>
      p.positions.foldl (fun idx pos => addTerm idx e.1 p.doc_id pos) idx) idx) []

/-- `Persistence::load` (persistence.cpp, lines 76-166): the header is
validated *before* any engine state is cleared; on failure the engine is
returned untouched.  On success the documents are restored one by one
(the stored doc id is narrowed to `uint32_t` when placed inside the
`Document`) and the index is rebuilt by replaying postings. -/
def load (e : Engine) (f : SnapshotFile) : Bool × Engine :=
  if f.magic ≠ snapshotMagic ∨ f.version ≠ 1 then
    (false, e)
  else
    (true,
      { documents := f.documents.foldl
          (fun m kv => storePut m kv.1 { kv.2 with id := kv.1 % 4294967296 }) [],
        index := replayIndex f.terms,
        next_doc_id := f.next_doc_id })

/-! ### Top-K selection (top_k_heap.hpp, search_engine.cpp lines 282-361) -/

/-- Scored document for top-K selection (`ScoredDocument`,
top_k_heap.hpp).  Scores are `double` in the source; only comparisons
and positivity matter for selection, so they are modelled exactly in
`ℚ`. -/
structure Scored where
  doc_id : Nat
  score : ℚ
deriving DecidableEq, Repr

/-- `ScoredDocument::operator<` (top_k_heap.hpp, lines 29-34): by score;
on equal scores the element with the *larger* doc_id is the smaller. -/
def pqLT (a b : Scored) : Prop :=
  a.score < b.score ∨ (a.score = b.score ∧ b.doc_id < a.doc_id)

instance : DecidableRel pqLT := fun a b => by
  unfold pqLT
  infer_instance

/-- `ScoredDocument::operator>` (top_k_heap.hpp, lines 20-27). -/
def pqGT (a b : Scored) : Prop :=
  b.score < a.score ∨ (a.score = b.score ∧ a.doc_id < b.doc_id)

instance : DecidableRel pqGT := fun a b => by
  unfold pqGT
  infer_instance

/-- The non-strict priority-queue order (the negation of `operator<` the
other way round).  The heap of `BoundedPriorityQueue` is represented
canonically as a list sorted ascending in this order: `top()` is the
head (the minimum), `pop()` drops it, `push` inserts. -/
def pqLE (a b : Scored) : Prop := ¬ pqLT b a

instance : DecidableRel pqLE := fun a b => by
  unfold pqLE
  infer_instance

instance : IsTotal Scored pqLE where
  total a b := by
    unfold pqLE pqLT
    rcases lt_trichotomy a.score b.score with h | h | h
    · left
      rintro (hc | ⟨hc, -⟩)
      · exact lt_asymm h hc
      · exact (ne_of_gt h) hc
    · rcases Nat.lt_or_ge a.doc_id b.doc_id with hd | hd
      · right
        rintro (hc | ⟨-, hc⟩)
        · exact (ne_of_lt hc) h
        · omega
      · left
        rintro (hc | ⟨-, hc⟩)
        · exact (ne_of_lt hc) h.symm
        · omega
    · right
      rintro (hc | ⟨hc, -⟩)
      · exact lt_asymm h hc
      · exact (ne_of_gt h) hc

instance : IsTrans Scored pqLE where
  trans a b c hab hbc := by
    unfold pqLE pqLT at *
    push_neg at hab hbc
    obtain ⟨h1, h2⟩ := hab
    obtain ⟨h3, h4⟩ := hbc
    rintro (hc | ⟨hce, hcd⟩)
    · linarith
    · have hba : b.score = a.score := by linarith
      have hcb : c.score = b.score := by linarith
      have := h2 hba
      have := h4 hcb
      omega

/-- The comparator of the full-sort path (search_engine.cpp, lines
352-355): descending by score alone. -/
def scoreDesc (a b : Scored) : Prop := b.score ≤ a.score

instance : DecidableRel scoreDesc := fun a b => by
  unfold scoreDesc
  infer_instance

instance : IsTotal Scored scoreDesc where
  total a b := le_total b.score a.score

instance : IsTrans Scored scoreDesc where
  trans _ _ _ hab hbc := le_trans hbc hab

/-- Strictly ascending by score (used to identify sorted outputs when all
scores are distinct). -/
def scoreLt (a b : Scored) : Prop := a.score < b.score

/-- Strictly descending by score. -/
def scoreGt (a b : Scored) : Prop := b.score < a.score

instance : IsAntisymm Scored scoreLt where
  antisymm _ _ hab hba := absurd hab (lt_asymm hba)

instance : IsAntisymm Scored scoreGt where
  antisymm _ _ hab hba := absurd hab (lt_asymm hba)

/-- `BoundedPriorityQueue::minScore`: 0.0 on an empty heap, else the
score of `top()` (top_k_heap.hpp, lines 146-148). -/
def minScore (h : List Scored) : ℚ :=
  if h.isEmpty then 0 else (h.headD ⟨0, 0⟩).score

/-- `BoundedPriorityQueue::push` (top_k_heap.hpp, lines 76-90): no-op at
capacity 0; insert when below capacity; when full, replace `top()` iff
the item compares greater than it. -/
def bpqPush (K : Nat) (h : List Scored) (x : Scored) : List Scored :=
  if K = 0 then h
  else if h.length < K then h.orderedInsert pqLE x
  else if pqGT x (h.headD ⟨0, 0⟩) then (h.tail).orderedInsert pqLE x
  else h

/-- One candidate step of the heap path in `SearchEngine::search`
(search_engine.cpp, lines 289-301): only positive scores are considered
and a push is attempted only when the heap is not full or the score beats
`minScore()`. -/
def heapStep (K : Nat) (h : List Scored) (c : Scored) : List Scored :=
  if 0 < c.score then
    if ¬ K ≤ h.length ∨ minScore h < c.score then bpqPush K h c else h
  else h

/-- The heap selection path over a candidate list, ending with
`getSorted()`'s descending output (top_k_heap.hpp, lines 96-109). -/
def heapSelect (K : Nat) (cs : List Scored) : List Scored :=
  (cs.foldl (heapStep K) []).reverse

/-- The full-sort selection path (search_engine.cpp, lines 325-360):
keep the candidates with positive score, sort descending by score alone,
truncate to `max_results`.  `std::sort`'s order on equal scores is
unspecified; the embedding fixes the stable refinement (insertion sort:
equal scores stay in candidate order). -/
def sortSelect (K : Nat) (cs : List Scored) : List Scored :=
  ((cs.filter fun c => 0 < c.score).insertionSort scoreDesc).take K

/-! ### TF-IDF ranker (src/src/ranker.cpp, lines 17-58) -/

/-- ASCII `::tolower`, applied byte-wise to the document text. -/
def toLowerChar (c : Char) : Char :=
  if 'A' ≤ c ∧ c ≤ 'Z' then Char.ofNat (c.toNat + 32) else c

/-- The scan loop of `TfIdfRanker::score` (ranker.cpp, lines 36-39):
repeated `find` advancing by the pattern length — counts non-overlapping
occurrences left to right.  Structural recursion on a fuel equal to the
remaining text length: every iteration consumes at least one character
(on a match, `pat.length ≥ 1` of them), so the fuel never runs out.
(On the empty pattern the C++ loop would not terminate; the search path
never produces an empty query term, and the definition returns 0 there.) -/
def countOccurAux : Nat → List Char → List Char → Nat
  | 0, _, _ => 0
  | _ + 1, [], _ => 0
  | fuel + 1, t :: ts, pat =>
    if pat ≠ [] ∧ pat.isPrefixOf (t :: ts) then
      1 + countOccurAux fuel ((t :: ts).drop pat.length) pat
    else
      countOccurAux fuel ts pat

/-- The occurrence count of the scan loop (see `countOccurAux`). -/
def countOccur (text pat : List Char) : Nat :=
  countOccurAux text.length text pat

/-- Index statistics handed to the ranker (`IndexStats`, ranker.hpp):
total documents and the per-term document frequencies recorded by
`SearchEngine::search`. -/
structure RankStats where
  total_docs : Nat
  doc_frequency : List (String × Nat)
deriving DecidableEq, Repr

/-- The document frequency the ranker uses (ranker.cpp, lines 43-45):
the recorded value when the term is present in the map, else 1. -/
def dfLookup (stats : RankStats) (t : String) : Nat :=
  ((stats.doc_frequency.find? fun e => e.1 = t).map Prod.snd).getD 1

/-- The recorded document frequency (0 when absent), as the claim reads
it. -/
def dfRecorded (stats : RankStats) (t : String) : Nat :=
  ((stats.doc_frequency.find? fun e => e.1 = t).map Prod.snd).getD 0

/-- Term frequency as computed by the ranker: non-overlapping scan of the
query term over the lower-cased document text (the term itself is *not*
lower-cased by the ranker: `lower_term` is assigned but never
transformed). -/
def termFreq (docText : List Char) (t : String) : Nat :=
  countOccur (docText.map toLowerChar) t.toList

/-- One term's contribution, `log(1.0 + tf) * log(double(N) / df)`
(ranker.cpp, lines 48-55).  In IEEE double arithmetic `double(N) / 0` is
`+∞` for `N ≥ 1` and `log(+∞) = +∞`; multiplied by `log(1 + tf) > 0`
(this branch runs only when `tf ≥ 1`) the contribution is `+∞`, modelled
as `⊤ : EReal`.  All finite values are modelled exactly over `ℝ`. -/
noncomputable def tfIdfTermContribution (tf df N : Nat) : EReal :=
  if df = 0 then ⊤
  else ((Real.log (1 + (tf : ℝ)) * Real.log ((N : ℝ) / (df : ℝ)) : ℝ) : EReal)

/-- One iteration of the scoring loop: terms with `tf > 0` accumulate
their contribution, others leave the score unchanged. -/
noncomputable def tfIdfStep (docText : List Char) (stats : RankStats)
    (acc : EReal) (t : String) : EReal :=
  if 0 < termFreq docText t then
    acc + tfIdfTermContribution (termFreq docText t) (dfLookup stats t)
      stats.total_docs
  else acc

/-- `TfIdfRanker::score` (ranker.cpp, lines 17-58): 0 when the index is
empty; otherwise the terms with `tf > 0` accumulate their contribution. -/
noncomputable def tfIdfScore (terms : List String) (docText : List Char)
    (stats : RankStats) : EReal :=
  if stats.total_docs = 0 then 0
  else terms.foldl (tfIdfStep docText stats) 0

/-- The number of (possibly overlapping) substring occurrences: all start
positions at which the pattern occurs.  (Definition written from the
claim's words "number of case-insensitive substring occurrences", for
comparison with the source-derived `countOccur`.) -/
def specSubstrCount (text pat : List Char) : Nat :=
  (List.range text.length).countP fun i => pat.isPrefixOf (text.drop i)

/-- The score the claim ascribes to the ranker: the sum over exactly the
query terms whose *recorded* document frequency is ≥ 1 of
`ln(1 + tf) · ln(total_docs / df)` with `tf` the substring-occurrence
count.  (Definition written from the claim's words, for comparison with
the source-derived `tfIdfScore`.) -/
noncomputable def specTfIdfScore (terms : List String) (docText : List Char)
    (stats : RankStats) : ℝ :=
  ((terms.filter fun t => 1 ≤ dfRecorded stats t).map fun t =>
    Real.log (1 + (specSubstrCount (docText.map toLowerChar) t.toList : ℝ)) *
      Real.log ((stats.total_docs : ℝ) / (dfRecorded stats t : ℝ))).sum

/-! ### Theorems -/

/-- On a list whose skip-pointer doc ids ascend, the entries with
`doc_id < t` form the prefix cut at `lower_bound`'s index. -/
theorem filter_lt_eq_take_findIdx (t : Nat) :
    ∀ (sps : List SkipPointer),
      sps.Pairwise (fun a b => a.doc_id < b.doc_id) →
      sps.filter (fun sp => sp.doc_id < t) =
        sps.take (sps.findIdx fun sp => t ≤ sp.doc_id) := by
  intro sps
  induction sps with
  | nil => intro _; rfl
  | cons y rest ih =>
    intro hp
    rw [List.pairwise_cons] at hp
    by_cases hy : t ≤ y.doc_id
    · have hc1 : (decide (t ≤ y.doc_id)) = true := by simpa using hy
      have hc2 : (decide (y.doc_id < t)) = false := by
        simp only [decide_eq_false_iff_not]
        omega
      rw [List.findIdx_cons, hc1, cond_true, List.take_zero, List.filter_cons]
      simp only [hc2, Bool.false_eq_true, if_false]
      rw [List.filter_eq_nil_iff]
      intro z hz
      have := hp.1 z hz
      simp only [decide_eq_true_eq]
      omega
    · have hc1 : (decide (t ≤ y.doc_id)) = false := by
        simp only [decide_eq_false_iff_not]
        omega
      have hc2 : (decide (y.doc_id < t)) = true := by
        simp only [decide_eq_true_eq]
        omega
      rw [List.findIdx_cons, hc1, cond_false, List.filter_cons, if_pos hc2]
      rw [List.take_succ_cons, ih hp.2]

/-- C5 (amended): with ascending skip-pointer doc ids, `findSkipTarget`
returns the position of the greatest skip pointer whose doc_id is
strictly less than the target (0 when there is none, in particular when
the first skip pointer's doc_id is ≥ target or the list is empty). -/
theorem findSkipTarget_greatest_strictly_below (l : PostingList) (target : Nat)
    (hasc : l.skip_pointers.Pairwise fun a b => a.doc_id < b.doc_id) :
    l.findSkipTarget target =
      (((l.skip_pointers.filter fun sp => sp.doc_id < target).getLast?).map
        SkipPointer.position).getD 0 := by
  unfold PostingList.findSkipTarget
  by_cases hemp : l.skip_pointers.isEmpty
  · rw [if_pos hemp]
    rw [List.isEmpty_iff] at hemp
    rw [hemp]
    rfl
  · rw [if_neg hemp]
    rw [filter_lt_eq_take_findIdx target l.skip_pointers hasc]
    set sps := l.skip_pointers with hsps
    set idx := sps.findIdx (fun sp => target ≤ sp.doc_id) with hidx
    by_cases h0 : idx = 0
    · rw [if_pos h0, h0]
      rfl
    · rw [if_neg h0]
      have hle : idx ≤ sps.length :=
        List.findIdx_le_length (fun sp : SkipPointer => decide (target ≤ sp.doc_id))
      have hlen : (sps.take idx).length = idx := by
        rw [List.length_take]
        omega
      have hpos : idx - 1 < sps.length := by omega
      have hgl : (sps.take idx).getLast? = some (sps.get ⟨idx - 1, hpos⟩) := by
        rw [List.getLast?_eq_getElem?, hlen, List.getElem?_take, if_pos (by omega),
          List.getElem?_eq_getElem hpos]
        rfl
      rw [hgl, List.getD_eq_getElem?_getD, List.getElem?_eq_getElem hpos]
      rfl

/-- C5 witness: the amended theorem applied to a concrete posting list. -/
theorem findSkipTarget_greatest_strictly_below_witness :
    (PostingList.mk [⟨5, 1, []⟩, ⟨7, 1, []⟩, ⟨10, 1, []⟩]
        [⟨0, 5⟩, ⟨2, 10⟩]).findSkipTarget 8 = 0 := by
  rw [findSkipTarget_greatest_strictly_below _ 8 (by decide)]
  decide

/-- C5 counterexample: a posting list satisfying all of the claim's
hypotheses (strictly ascending doc ids, valid materialized skip pointers)
on which `findSkipTarget 10` returns 0, while the position of the greatest
skip pointer with doc_id ≤ 10 is 2: `lower_bound` + decrement selects the
last pointer *strictly below* the target, so a pointer whose doc_id equals
the target is skipped over. -/
theorem findSkipTarget_claim_false :
    (PostingList.mk [⟨5, 1, []⟩, ⟨7, 1, []⟩, ⟨10, 1, []⟩]
          [⟨0, 5⟩, ⟨2, 10⟩]).findSkipTarget 10 = 0 ∧
    (PostingList.mk [⟨5, 1, []⟩, ⟨7, 1, []⟩, ⟨10, 1, []⟩]
          [⟨0, 5⟩, ⟨2, 10⟩]).specSkipTarget 10 = 2 ∧
    (PostingList.mk [⟨5, 1, []⟩, ⟨7, 1, []⟩, ⟨10, 1, []⟩]
          [⟨0, 5⟩, ⟨2, 10⟩]).docIds.Pairwise (· < ·) ∧
    (PostingList.mk [⟨5, 1, []⟩, ⟨7, 1, []⟩, ⟨10, 1, []⟩]
          [⟨0, 5⟩, ⟨2, 10⟩]).SkipsValid := by
  refine ⟨by decide, by decide, by decide, ?_⟩
  intro sp hsp
  fin_cases hsp
  · exact ⟨by decide, by decide⟩
  · exact ⟨by decide, by decide⟩

/-- C6 counterexample: stemming "relational" yields "relation", not
"relate" — the "tional" test precedes the "ational" test and every token
ending in "ational" also ends in "tional". -/
theorem simpleStem_relational :
    Tokenizer.simpleStem ("relational".toList) = "relation".toList ∧
      "relation".toList ≠ "relate".toList := by
  constructor
  · decide
  · decide

/-- C6 (amended): tokens shorter than 4 characters are unchanged, and a
token of length ≥ 8 ending in "ational" has its suffix "tional" replaced
by "tion" (the "ational"→"ate" branch is unreachable for such tokens). -/
theorem simpleStem_spec (t : List Char) :
    (t.length < 4 → Tokenizer.simpleStem t = t) ∧
    (8 ≤ t.length → (∃ pre, t = pre ++ ationalSuf) →
      Tokenizer.simpleStem t = t.take (t.length - 6) ++ tionSuf) := by
  constructor
  · intro h
    unfold Tokenizer.simpleStem
    rw [if_pos h]
  · rintro hlen ⟨pre, rfl⟩
    have hplen : (pre ++ ationalSuf).length = pre.length + 7 := by
      rw [List.length_append]
      rfl
    have hdrop : (pre ++ ationalSuf).drop ((pre ++ ationalSuf).length - 6) =
        tionalSuf := by
      rw [hplen]
      have : pre.length + 7 - 6 = pre.length + 1 := by omega
      rw [this]
      rw [List.drop_append_eq_append_drop]
      rw [List.drop_eq_nil_of_le (by omega)]
      have : pre.length + 1 - pre.length = 1 := by omega
      rw [this]
      rfl
    unfold Tokenizer.simpleStem
    rw [if_neg (by omega)]
    rw [if_pos ⟨by omega, hdrop⟩]

/-- C6 witness: the amended theorem applied to "relational" (length 10)
and to the short token "cat". -/
theorem simpleStem_spec_witness :
    Tokenizer.simpleStem ("cat".toList) = "cat".toList ∧
    Tokenizer.simpleStem ("relational".toList) =
      ("relational".toList).take 4 ++ tionSuf := by
  constructor
  · exact (simpleStem_spec ("cat".toList)).1 (by decide)
  · exact (simpleStem_spec ("relational".toList)).2 (by decide)
      ⟨"rel".toList, by decide⟩

/-- C8: loading a snapshot whose header magic is not 0x53454152 or whose
version is not 1 fails and leaves the engine untouched — the header is
validated before any state is cleared (persistence.cpp lines 83-91). -/
theorem load_bad_header (e : Engine) (f : SnapshotFile)
    (h : f.magic ≠ snapshotMagic ∨ f.version ≠ 1) :
    load e f = (false, e) := by
  unfold load
  rw [if_pos h]

/-- C8 witness: a concrete non-empty engine and a snapshot with wrong
magic. -/
theorem load_bad_header_witness :
    load ⟨[(1, ⟨1, ["fox"]⟩)], [("fox", [⟨1, 1, []⟩])], 2⟩
        ⟨0x53454151, 1, 7, [], []⟩ =
      (false, ⟨[(1, ⟨1, ["fox"]⟩)], [("fox", [⟨1, 1, []⟩])], 2⟩) :=
  load_bad_header _ _ (Or.inl (by decide))

/-- C1 (failing input, evaluated): index one document whose only token
"fox" sits at position 0.  The index then holds the posting
(doc 1, tf 1, positions []) — position 0 is never recorded by `addTerm` —
and the snapshot round-trip *drops the posting entirely*, because load
replays one `addTerm` call per stored position.  A search for "fox"
matches doc 1 before the round-trip and nothing after, contradicting the
round-trip claim. -/
theorem snapshot_roundtrip_drops_position0 :
    lookupPL ((indexDocumentInternal Engine.empty ⟨1, ["fox"]⟩).2.index) "fox"
        = [⟨1, 1, []⟩] ∧
    (load Engine.empty (save (indexDocumentInternal Engine.empty ⟨1, ["fox"]⟩).2)).1
        = true ∧
    lookupPL
        ((load Engine.empty
          (save (indexDocumentInternal Engine.empty ⟨1, ["fox"]⟩).2)).2.index) "fox"
        = [] := by
  refine ⟨by decide, by decide, by decide⟩

/-- C3 (failing input, evaluated): indexing a document with
caller-supplied id 1 returns 1 but leaves `next_doc_id_` at 1; the next
document submitted with id 0 is then assigned the *same* id 1 and
overwrites the stored document — the internal counter is never advanced
past a caller-supplied id. -/
theorem indexDocument_id_collision :
    (indexDocumentInternal Engine.empty ⟨1, ["alpha"]⟩).1 = 1 ∧
    (indexDocumentInternal Engine.empty ⟨1, ["alpha"]⟩).2.next_doc_id = 1 ∧
    (indexDocumentInternal
      (indexDocumentInternal Engine.empty ⟨1, ["alpha"]⟩).2 ⟨0, ["beta"]⟩).1 = 1 ∧
    storeGet (indexDocumentInternal
      (indexDocumentInternal Engine.empty ⟨1, ["alpha"]⟩).2 ⟨0, ["beta"]⟩).2.documents 1
      = some ⟨1, ["beta"]⟩ := by
  refine ⟨by decide, by decide, by decide, by decide⟩

/-- At capacity 0 a heap step never changes the (empty) heap: `push`
returns at the `capacity_ == 0` check. -/
theorem heapStep_zero (h : List Scored) (c : Scored) : heapStep 0 h c = h := by
  unfold heapStep bpqPush
  split
  · split
    · rw [if_pos rfl]
    · rfl
  · rfl

/-- C10: with `max_results = 0` both selection paths return the empty
list: the capacity-0 heap rejects every push (`isFull` is immediately
true and `push` returns at the `capacity_ == 0` check), and the full-sort
path truncates to length 0. -/
theorem select_zero_max_results (cs : List Scored) :
    heapSelect 0 cs = [] ∧ sortSelect 0 cs = [] := by
  constructor
  · unfold heapSelect
    have : cs.foldl (heapStep 0) [] = [] := by
      induction cs with
      | nil => rfl
      | cons c rest ih =>
        rw [List.foldl_cons, heapStep_zero]
        exact ih
    rw [this]
    rfl
  · unfold sortSelect
    rw [List.take_zero]

/-! #### Association-list lemmas for `addTerm` (C9, C1) -/

/-- `find?` for a key over the map that rewrites exactly the entries with
that key. -/
theorem find?_key_map (idx : Index) (t : String) (d pos : Nat) :
    (idx.map fun e => if e.1 = t then (t, addTermPL e.2 d pos) else e).find?
        (fun e => e.1 = t) =
      (idx.find? fun e => e.1 = t).map fun e => (t, addTermPL e.2 d pos) := by
  induction idx with
  | nil => rfl
  | cons e rest ih =>
    by_cases he : e.1 = t
    · have h1 : (if e.1 = t then (t, addTermPL e.2 d pos) else e)
          = (t, addTermPL e.2 d pos) := if_pos he
      rw [List.map_cons, h1, List.find?_cons, List.find?_cons]
      have h2 : (decide (((t : String), addTermPL e.2 d pos).1 = t)) = true := by
        simp
      have h3 : (decide (e.1 = t)) = true := by simpa using he
      rw [h2, h3]
      rfl
    · simp only [List.map_cons, if_neg he, List.find?_cons]
      have : (decide (e.1 = t)) = false := by simpa using he
      rw [this, ih]

/-- `find?` for a different key is untouched by the rewrite. -/
theorem find?_key_map_other (idx : Index) (t t' : String) (h : t' ≠ t)
    (d pos : Nat) :
    (idx.map fun e => if e.1 = t then (t, addTermPL e.2 d pos) else e).find?
        (fun e => e.1 = t') = idx.find? fun e => e.1 = t' := by
  induction idx with
  | nil => rfl
  | cons e rest ih =>
    by_cases he : e.1 = t
    · have hne : (t : String) ≠ t' := fun hc => h hc.symm
      have he' : ¬ (e.1 = t') := by rw [he]; exact hne
      simp only [List.map_cons, if_pos he, List.find?_cons]
      have h1 : (decide ((t, addTermPL e.2 d pos).1 = t')) = false := by simpa using hne
      have h2 : (decide (e.1 = t')) = false := by simpa using he'
      rw [h1, h2, ih]
    · simp only [List.map_cons, if_neg he, List.find?_cons]
      by_cases he' : e.1 = t'
      · have : (decide (e.1 = t')) = true := by simpa using he'
        rw [this]
      · have : (decide (e.1 = t')) = false := by simpa using he'
        rw [this, ih]

/-- Looking up the term just updated yields the updated posting list. -/
theorem lookupPL_addTerm_same (idx : Index) (t : String) (d pos : Nat) :
    lookupPL (addTerm idx t d pos) t = addTermPL (lookupPL idx t) d pos := by
  unfold addTerm lookupPL
  by_cases h : idx.any fun e => e.1 = t
  · rw [if_pos h, find?_key_map]
    rcases hf : idx.find? (fun e => e.1 = t) with _ | e0
    · rw [List.any_eq_true] at h
      obtain ⟨x, hx, hpx⟩ := h
      rw [List.find?_eq_none] at hf
      exact absurd hpx (hf x hx)
    · rw [hf]
      rfl
  · rw [if_neg h, List.find?_append]
    have hnone : idx.find? (fun e => e.1 = t) = none := by
      rw [List.find?_eq_none]
      intro x hx hpx
      exact h (List.any_eq_true.mpr ⟨x, hx, hpx⟩)
    rw [hnone]
    simp

/-- Looking up any other term is unaffected by `addTerm`. -/
theorem lookupPL_addTerm_other (idx : Index) (t t' : String) (h : t' ≠ t)
    (d pos : Nat) :
    lookupPL (addTerm idx t d pos) t' = lookupPL idx t' := by
  unfold addTerm lookupPL
  by_cases hany : idx.any fun e => e.1 = t
  · rw [if_pos hany, find?_key_map_other idx t t' h]
  · rw [if_neg hany, List.find?_append]
    have : ([(t, addTermPL [] d pos)].find? fun e => e.1 = t') = none := by
      have : (decide ((t : String) = t')) = false := by
        simp only [decide_eq_false_iff_not]
        exact fun hc => h hc.symm
      simp [List.find?_cons, this]
    rw [this, Option.or_none]

/-- Doc ids after `addTermPL`: unchanged when the doc is present, else
the new doc id is appended. -/
theorem addTermPL_docIds (pl : List Posting) (d pos : Nat) :
    (addTermPL pl d pos).map Posting.doc_id =
      if d ∈ pl.map Posting.doc_id then pl.map Posting.doc_id
      else pl.map Posting.doc_id ++ [d] := by
  induction pl with
  | nil => simp [addTermPL]
  | cons p rest ih =>
    by_cases hp : p.doc_id = d
    · simp [addTermPL, hp]
    · have hne : d ∈ p.doc_id :: rest.map Posting.doc_id ↔
          d ∈ rest.map Posting.doc_id := by
        constructor
        · intro hmem
          rcases List.mem_cons.mp hmem with hc | hc
          · exact absurd hc.symm hp
          · exact hc
        · exact fun hmem => List.mem_cons_of_mem _ hmem
      by_cases hmem : d ∈ rest.map Posting.doc_id
      · simp only [addTermPL, if_neg hp, List.map_cons, ih, if_pos hmem]
        rw [if_pos (hne.mpr hmem)]
      · simp only [addTermPL, if_neg hp, List.map_cons, ih, if_neg hmem]
        rw [if_neg (fun hc => hmem (hne.mp hc))]
        simp

/-- `tfAt` for the updated doc id increments by one. -/
theorem tfAt_addTermPL_same (pl : List Posting) (d pos : Nat) :
    tfAt (addTermPL pl d pos) d = tfAt pl d + 1 := by
  induction pl with
  | nil => simp [addTermPL, tfAt]
  | cons p rest ih =>
    by_cases hp : p.doc_id = d
    · simp [addTermPL, hp, tfAt, List.find?_cons]
    · have : (decide (p.doc_id = d)) = false := by simpa using hp
      simp only [addTermPL, if_neg hp, tfAt, List.find?_cons, this]
      exact ih

/-- `tfAt` for any other doc id is unchanged. -/
theorem tfAt_addTermPL_other (pl : List Posting) (d d' pos : Nat)
    (h : d' ≠ d) :
    tfAt (addTermPL pl d pos) d' = tfAt pl d' := by
  induction pl with
  | nil =>
    have : (decide (d = d')) = false := by
      simp only [decide_eq_false_iff_not]
      exact fun hc => h hc.symm
    simp [addTermPL, tfAt, List.find?_cons, this]
  | cons p rest ih =>
    by_cases hp : p.doc_id = d
    · have : (decide (d = d')) = false := by
        simp only [decide_eq_false_iff_not]
        exact fun hc => h hc.symm
      simp [addTermPL, hp, tfAt, List.find?_cons, this]
    · simp only [addTermPL, if_neg hp, tfAt, List.find?_cons]
      by_cases hp' : p.doc_id = d'
      · have : (decide (p.doc_id = d')) = true := by simpa using hp'
        rw [this]
      · have : (decide (p.doc_id = d')) = false := by simpa using hp'
        rw [this]
        exact ih

/-- The term frequency recorded in `buildIndex calls` for a (term, doc)
pair equals the number of `addTerm` calls for that pair. -/
theorem buildIndex_tfAt (calls : List (String × Nat × Nat)) (t : String)
    (d : Nat) :
    tfAt (lookupPL (buildIndex calls) t) d =
      calls.countP fun c => decide (c.1 = t ∧ c.2.1 = d) := by
  induction calls using List.reverseRecOn with
  | nil => rfl
  | append_singleton l c ih =>
    have hb : buildIndex (l ++ [c]) =
        addTerm (buildIndex l) c.1 c.2.1 c.2.2 := by
      unfold buildIndex
      rw [List.foldl_append]
      rfl
    rw [hb, List.countP_append]
    by_cases ht : c.1 = t
    · rw [ht, lookupPL_addTerm_same]
      by_cases hd : c.2.1 = d
      · rw [hd, tfAt_addTermPL_same, ih]
        have : (List.countP (fun c => decide (c.1 = t ∧ c.2.1 = d)) [c]) = 1 := by
          simp [List.countP_cons, ht, hd]
        rw [this]
      · rw [tfAt_addTermPL_other _ _ _ _ (fun hc => hd hc.symm), ih]
        have : (List.countP (fun c => decide (c.1 = t ∧ c.2.1 = d)) [c]) = 0 := by
          simp [List.countP_cons, hd]
        rw [this]
        omega
    · rw [lookupPL_addTerm_other _ _ _ (fun hc => ht hc.symm), ih]
      have : (List.countP (fun c => decide (c.1 = t ∧ c.2.1 = d)) [c]) = 0 := by
        simp [List.countP_cons, ht]
      rw [this]
      omega

/-- The posting list of every term in `buildIndex calls` has pairwise
distinct doc ids. -/
theorem buildIndex_nodup_docIds (calls : List (String × Nat × Nat))
    (t : String) :
    ((lookupPL (buildIndex calls) t).map Posting.doc_id).Nodup := by
  induction calls using List.reverseRecOn with
  | nil => exact List.nodup_nil
  | append_singleton l c ih =>
    have hb : buildIndex (l ++ [c]) =
        addTerm (buildIndex l) c.1 c.2.1 c.2.2 := by
      unfold buildIndex
      rw [List.foldl_append]
      rfl
    rw [hb]
    by_cases ht : c.1 = t
    · rw [ht, lookupPL_addTerm_same, addTermPL_docIds]
      by_cases hmem : c.2.1 ∈ (lookupPL (buildIndex l) t).map Posting.doc_id
      · rw [if_pos hmem]
        exact ih
      · rw [if_neg hmem, List.nodup_append]
        refine ⟨ih, List.nodup_singleton _, ?_⟩
        intro a ha hb2
        simp only [List.mem_singleton] at hb2
        subst hb2
        exact hmem ha
    · rw [lookupPL_addTerm_other _ _ _ (fun hc => ht hc.symm)]
      exact ih

/-- In a posting list with pairwise distinct doc ids, the first posting
found for a member posting's doc id is that posting itself. -/
theorem find?_self_of_nodup (pl : List Posting)
    (hnd : (pl.map Posting.doc_id).Nodup) (p : Posting) (hp : p ∈ pl) :
    pl.find? (fun q => q.doc_id = p.doc_id) = some p := by
  induction pl with
  | nil => cases hp
  | cons q rest ih =>
    rcases List.mem_cons.mp hp with hq | hq
    · subst hq
      simp [List.find?_cons]
    · rw [List.map_cons, List.nodup_cons] at hnd
      have hqd : q.doc_id ≠ p.doc_id := by
        intro hc
        exact hnd.1 (hc ▸ List.mem_map_of_mem Posting.doc_id hq)
      have : (decide (q.doc_id = p.doc_id)) = false := by simpa using hqd
      rw [List.find?_cons, this]
      exact ih hnd.2 hq

/-- C9: over an arbitrary sequence of `addTerm(term, doc_id, position)`
calls, in any order of doc ids, every posting list holds at most one
posting per doc id, and that posting's `term_frequency` equals the number
of `addTerm` calls made for that (term, doc_id) pair — `addTerm` merges
into the existing posting found by `std::find_if`, wherever it sits in
the list. -/
theorem addTerm_merges_at_most_one_posting
    (calls : List (String × Nat × Nat)) (t : String) :
    ((lookupPL (buildIndex calls) t).map Posting.doc_id).Nodup ∧
    ∀ p ∈ lookupPL (buildIndex calls) t,
      p.term_frequency =
        calls.countP fun c => decide (c.1 = t ∧ c.2.1 = p.doc_id) := by
  refine ⟨buildIndex_nodup_docIds calls t, ?_⟩
  intro p hp
  have hfind := find?_self_of_nodup _ (buildIndex_nodup_docIds calls t) p hp
  have := buildIndex_tfAt calls t p.doc_id
  rw [tfAt, hfind] at this
  simpa using this

/-! #### Skip-pointer intersection (C2) -/

theorem docIds_length (l : PostingList) :
    l.docIds.length = l.postings.length := by
  unfold PostingList.docIds
  exact List.length_map _ _

theorem docIds_get (l : PostingList) (i : Nat) (h : i < l.postings.length)
    (h' : i < l.docIds.length) :
    l.docIds.get ⟨i, h'⟩ = (l.postings.get ⟨i, h⟩).doc_id := by
  unfold PostingList.docIds
  simp

/-- Strictly ascending lists compare by position. -/
theorem pairwise_get_lt {l : List Nat} (h : l.Pairwise (· < ·))
    {p q : Nat} (hp : p < l.length) (hq : q < l.length) (hpq : p < q) :
    l.get ⟨p, hp⟩ < l.get ⟨q, hq⟩ := by
  rw [List.pairwise_iff_getElem] at h
  exact h p q hp hq hpq

theorem pairwise_get_le {l : List Nat} (h : l.Pairwise (· < ·))
    {p q : Nat} (hp : p < l.length) (hq : q < l.length) (hpq : p ≤ q) :
    l.get ⟨p, hp⟩ ≤ l.get ⟨q, hq⟩ := by
  rcases Nat.lt_or_ge p q with hc | hc
  · exact le_of_lt (pairwise_get_lt h hp hq hc)
  · have : p = q := by omega
    subst this
    exact le_refl _

/-- Every element of `l.drop j` of an ascending list is ≥ the element at
position `j`. -/
theorem le_of_mem_drop {l : List Nat} (h : l.Pairwise (· < ·)) {j : Nat}
    (hj : j < l.length) : ∀ x ∈ l.drop j, l.get ⟨j, hj⟩ ≤ x := by
  intro x hx
  obtain ⟨q, hq, rfl⟩ := List.mem_iff_getElem.mp hx
  rw [List.getElem_drop l]
  have hlt : j + q < l.length := by
    have := List.length_drop j l
    omega
  exact pairwise_get_le h hj hlt (by omega)

/-- Every element of `l.drop (i+1)` of an ascending list exceeds the
element at position `i`. -/
theorem lt_of_mem_drop_succ {l : List Nat} (h : l.Pairwise (· < ·)) {i : Nat}
    (hi : i < l.length) : ∀ x ∈ l.drop (i + 1), l.get ⟨i, hi⟩ < x := by
  intro x hx
  obtain ⟨q, hq, rfl⟩ := List.mem_iff_getElem.mp hx
  rw [List.getElem_drop l]
  have hlt : i + 1 + q < l.length := by
    have := List.length_drop (i + 1) l
    omega
  exact pairwise_get_lt h hi hlt (by omega)

/-- `findSkipTarget` returns 0 or a valid position whose doc id is
strictly below the target (consequence of `lower_bound` + decrement,
using skip-pointer validity). -/
theorem findSkipTarget_zero_or_lt (l : PostingList) (hv : l.SkipsValid)
    (t : Nat) :
    l.findSkipTarget t = 0 ∨
      ∃ hlt : l.findSkipTarget t < l.docIds.length,
        l.docIds.get ⟨l.findSkipTarget t, hlt⟩ < t := by
  unfold PostingList.findSkipTarget
  by_cases hemp : l.skip_pointers.isEmpty
  · rw [if_pos hemp]
    exact Or.inl rfl
  · rw [if_neg hemp]
    set sps := l.skip_pointers with hsps
    set idx := sps.findIdx (fun sp => decide (t ≤ sp.doc_id)) with hidx
    by_cases h0 : idx = 0
    · rw [if_pos h0]
      exact Or.inl rfl
    · rw [if_neg h0]
      have hle : idx ≤ sps.length :=
        List.findIdx_le_length (fun sp : SkipPointer => decide (t ≤ sp.doc_id))
      have hpos : idx - 1 < sps.length := by omega
      have hget : sps.getD (idx - 1) ⟨0, 0⟩ = sps.get ⟨idx - 1, hpos⟩ := by
        rw [List.getD_eq_getElem?_getD, List.getElem?_eq_getElem hpos]
        rfl
      have hfail : ¬ (t ≤ (sps.get ⟨idx - 1, hpos⟩).doc_id) := by
        have := @List.not_of_lt_findIdx SkipPointer
          (fun sp => decide (t ≤ sp.doc_id)) sps (idx - 1) (by omega)
        simpa using this
      have hmem : sps.get ⟨idx - 1, hpos⟩ ∈ sps := List.get_mem sps _ hpos
      obtain ⟨hvp, hvd⟩ := hv _ hmem
      right
      rw [hget]
      refine ⟨by rw [docIds_length]; exact hvp, ?_⟩
      rw [docIds_get l _ hvp]
      rw [hvd]
      omega

/-- Advancing the lagging cursor (by one, or through the skip target)
passes only positions whose doc ids stay strictly below the other side's
current doc id. -/
theorem advance_keeps_below (l : PostingList)
    (hasc : l.docIds.Pairwise (· < ·)) (hv : l.SkipsValid) (t i : Nat)
    (hi : i < l.docIds.length) (hdi : l.docIds.get ⟨i, hi⟩ < t) :
    ∀ p, p < (if l.skip_pointers.isEmpty then i + 1
              else max (i + 1) (l.findSkipTarget t)) →
      ∀ hp : p < l.docIds.length, l.docIds.get ⟨p, hp⟩ < t := by
  intro p hlt hp
  have hcase : p ≤ i ∨
      (¬ l.skip_pointers.isEmpty ∧ p < l.findSkipTarget t) := by
    by_cases hemp : l.skip_pointers.isEmpty
    · rw [if_pos hemp] at hlt
      exact Or.inl (by omega)
    · rw [if_neg hemp] at hlt
      rcases Nat.lt_or_ge p (i + 1) with hc | hc
      · exact Or.inl (by omega)
      · exact Or.inr ⟨hemp, by omega⟩
  rcases hcase with hc | ⟨hemp, hc⟩
  · exact lt_of_le_of_lt (pairwise_get_le hasc hp hi hc) hdi
  · rcases findSkipTarget_zero_or_lt l hv t with h0 | ⟨hsl, hsd⟩
    · omega
    · exact lt_trans (pairwise_get_lt hasc hp hsl hc) hsd

/-- Skipping positions whose doc ids are below everything in the other
window does not change the intersection filter (left list advanced). -/
theorem filter_mem_drop_left (d1s d2s : List Nat) (j i i' : Nat)
    (hle : i ≤ i')
    (hsmall : ∀ p, i ≤ p → p < i' → ∀ hp : p < d1s.length,
        ∀ y ∈ d2s.drop j, d1s.get ⟨p, hp⟩ < y) :
    (d1s.drop i).filter (fun d => decide (d ∈ d2s.drop j)) =
      (d1s.drop i').filter (fun d => decide (d ∈ d2s.drop j)) := by
  conv_lhs => rw [← List.take_append_drop (i' - i) (d1s.drop i)]
  rw [List.drop_drop]
  have hii : i + (i' - i) = i' := by omega
  rw [hii, List.filter_append]
  have hnil : (List.take (i' - i) (d1s.drop i)).filter
      (fun d => decide (d ∈ d2s.drop j)) = [] := by
    rw [List.filter_eq_nil_iff]
    intro x hx
    obtain ⟨q, hq, rfl⟩ := List.mem_iff_getElem.mp hx
    have hq1 : q < (d1s.drop i).length := by
      have := List.length_take (i' - i) (d1s.drop i)
      omega
    rw [List.getElem_take (d1s.drop i)]
    rw [List.getElem_drop d1s]
    have hlen : i + q < d1s.length := by
      have := List.length_drop i d1s
      omega
    have hqlt : q < i' - i := by
      have := List.length_take (i' - i) (d1s.drop i)
      omega
    intro hmem
    simp only [decide_eq_true_eq] at hmem
    exact lt_irrefl _ (hsmall (i + q) (by omega) (by omega) hlen _ hmem)
  rw [hnil, List.nil_append]

/-- Skipping positions in the *right* list whose doc ids are below
everything in the left window does not change the filter predicate. -/
theorem filter_mem_drop_right (d1s d2s : List Nat) (i j j' : Nat)
    (hle : j ≤ j')
    (hsmall : ∀ p, j ≤ p → p < j' → ∀ hp : p < d2s.length,
        ∀ x ∈ d1s.drop i, d2s.get ⟨p, hp⟩ < x) :
    (d1s.drop i).filter (fun d => decide (d ∈ d2s.drop j)) =
      (d1s.drop i).filter (fun d => decide (d ∈ d2s.drop j')) := by
  apply List.filter_congr
  intro x hx
  have hiff : x ∈ d2s.drop j ↔ x ∈ d2s.drop j' := by
    constructor
    · intro hmem
      rw [← List.take_append_drop (j' - j) (d2s.drop j)] at hmem
      rw [List.drop_drop] at hmem
      have hjj : j + (j' - j) = j' := by omega
      rw [hjj] at hmem
      rcases List.mem_append.mp hmem with hc | hc
      · exfalso
        obtain ⟨q, hq, hxq⟩ := List.mem_iff_getElem.mp hc
        have hq1 : q < (d2s.drop j).length := by
          have := List.length_take (j' - j) (d2s.drop j)
          omega
        rw [List.getElem_take (d2s.drop j)] at hxq
        rw [List.getElem_drop d2s] at hxq
        have hlen : j + q < d2s.length := by
          have := List.length_drop j d2s
          omega
        have hqlt : q < j' - j := by
          have := List.length_take (j' - j) (d2s.drop j)
          omega
        have := hsmall (j + q) (by omega) (by omega) hlen x hx
        rw [show d2s.get ⟨j + q, hlen⟩ = d2s[j + q] from rfl, hxq] at this
        exact lt_irrefl _ this
      · exact hc
    · intro hmem
      have hsub : d2s.drop j' = (d2s.drop j).drop (j' - j) := by
        rw [List.drop_drop]
        have : j + (j' - j) = j' := by omega
        rw [this]
      rw [hsub] at hmem
      exact List.drop_subset _ _ hmem
  exact decide_eq_decide.mpr hiff

/-- The invariant of the two-cursor loop: from cursors `(i, j)` the loop
computes exactly the doc ids of the left suffix that also occur in the
right suffix. -/
theorem intersectGo_filter (l1 l2 : PostingList)
    (h1 : l1.docIds.Pairwise (· < ·)) (h2 : l2.docIds.Pairwise (· < ·))
    (v1 : l1.SkipsValid) (v2 : l2.SkipsValid) :
    ∀ n i j, (l1.postings.length - i) + (l2.postings.length - j) ≤ n →
      intersectGo l1 l2 i j =
        (l1.docIds.drop i).filter fun d => decide (d ∈ l2.docIds.drop j) := by
  intro n
  induction n with
  | zero =>
    intro i j hm
    rw [intersectGo, dif_neg (by omega)]
    have hd : l1.docIds.drop i = [] :=
      List.drop_eq_nil_of_le (by rw [docIds_length]; omega)
    rw [hd]
    rfl
  | succ n ih =>
    intro i j hm
    rw [intersectGo]
    by_cases h : i < l1.postings.length ∧ j < l2.postings.length
    · rw [dif_pos h]
      obtain ⟨hi, hj⟩ := h
      have hi' : i < l1.docIds.length := by rw [docIds_length]; exact hi
      have hj' : j < l2.docIds.length := by rw [docIds_length]; exact hj
      have hg1 : l1.docIds.get ⟨i, hi'⟩ = (l1.postings.get ⟨i, hi⟩).doc_id :=
        docIds_get l1 i hi hi'
      have hg2 : l2.docIds.get ⟨j, hj'⟩ = (l2.postings.get ⟨j, hj⟩).doc_id :=
        docIds_get l2 j hj hj'
      have hdrop1 : l1.docIds.drop i = l1.docIds.get ⟨i, hi'⟩ :: l1.docIds.drop (i + 1) := by
        rw [List.drop_eq_getElem_cons hi']
        rfl
      have hdrop2 : l2.docIds.drop j = l2.docIds.get ⟨j, hj'⟩ :: l2.docIds.drop (j + 1) := by
        rw [List.drop_eq_getElem_cons hj']
        rfl
      by_cases heq : (l1.postings.get ⟨i, hi⟩).doc_id = (l2.postings.get ⟨j, hj⟩).doc_id
      · rw [if_pos heq]
        rw [hdrop1, List.filter_cons]
        have hmem : l1.docIds.get ⟨i, hi'⟩ ∈ l2.docIds.drop j := by
          rw [hdrop2]
          rw [hg1, hg2, heq]
          exact List.mem_cons_self _ _
        have hcond : (decide (l1.docIds.get ⟨i, hi'⟩ ∈ l2.docIds.drop j)) = true := by
          simpa using hmem
        rw [hcond, if_pos rfl]
        have hstep : (l1.docIds.drop (i + 1)).filter
              (fun d => decide (d ∈ l2.docIds.drop j)) =
            (l1.docIds.drop (i + 1)).filter
              (fun d => decide (d ∈ l2.docIds.drop (j + 1))) := by
          apply filter_mem_drop_right l1.docIds l2.docIds (i + 1) j (j + 1)
            (by omega)
          intro p hp1 hp2 hp x hx
          have hpj : p = j := by omega
          subst hpj
          have hxgt : l1.docIds.get ⟨i, hi'⟩ < x :=
            lt_of_mem_drop_succ h1 hi' x hx
          rw [hg2, ← heq, ← hg1]
          exact hxgt
        rw [hstep]
        rw [← ih (i + 1) (j + 1) (by omega)]
        rw [hg1, heq]
      · rw [if_neg heq]
        by_cases hlt : (l1.postings.get ⟨i, hi⟩).doc_id < (l2.postings.get ⟨j, hj⟩).doc_id
        · rw [if_pos hlt]
          set i' := (if l1.skip_pointers.isEmpty then i + 1
            else max (i + 1) (l1.findSkipTarget (l2.postings.get ⟨j, hj⟩).doc_id))
            with hidef
          have hkey := advance_keeps_below l1 h1 v1
            ((l2.postings.get ⟨j, hj⟩).doc_id) i hi' (by rw [hg1]; exact hlt)
          have hadv : i + 1 ≤ i' := by
            rw [hidef]
            split <;> omega
          have hfilter : (l1.docIds.drop i).filter
                (fun d => decide (d ∈ l2.docIds.drop j)) =
              (l1.docIds.drop i').filter
                (fun d => decide (d ∈ l2.docIds.drop j)) := by
            apply filter_mem_drop_left l1.docIds l2.docIds j i i' (by omega)
            intro p hp1 hp2 hp y hy
            have hpd : l1.docIds.get ⟨p, hp⟩ < (l2.postings.get ⟨j, hj⟩).doc_id :=
              hkey p hp2 hp
            have hyd : l2.docIds.get ⟨j, hj'⟩ ≤ y := le_of_mem_drop h2 hj' y hy
            rw [hg2] at hyd
            omega
          rw [hfilter]
          exact ih i' j (by omega)
        · rw [if_neg hlt]
          have hgt : (l2.postings.get ⟨j, hj⟩).doc_id < (l1.postings.get ⟨i, hi⟩).doc_id := by
            omega
          set j' := (if l2.skip_pointers.isEmpty then j + 1
            else max (j + 1) (l2.findSkipTarget (l1.postings.get ⟨i, hi⟩).doc_id))
            with hjdef
          have hkey := advance_keeps_below l2 h2 v2
            ((l1.postings.get ⟨i, hi⟩).doc_id) j hj' (by rw [hg2]; exact hgt)
          have hadv : j + 1 ≤ j' := by
            rw [hjdef]
            split <;> omega
          have hfilter : (l1.docIds.drop i).filter
                (fun d => decide (d ∈ l2.docIds.drop j)) =
              (l1.docIds.drop i).filter
                (fun d => decide (d ∈ l2.docIds.drop j')) := by
            apply filter_mem_drop_right l1.docIds l2.docIds i j j' (by omega)
            intro p hp1 hp2 hp x hx
            have hpd : l2.docIds.get ⟨p, hp⟩ < (l1.postings.get ⟨i, hi⟩).doc_id :=
              hkey p hp2 hp
            have hxd : l1.docIds.get ⟨i, hi'⟩ ≤ x := le_of_mem_drop h1 hi' x hx
            rw [hg1] at hxd
            omega
          rw [hfilter]
          exact ih i j' (by omega)
    · rw [dif_neg h]
      rcases Nat.lt_or_ge i l1.postings.length with hi | hi
      · have hj : l2.postings.length ≤ j := by omega
        symm
        rw [List.filter_eq_nil_iff]
        intro x hx
        have hd : l2.docIds.drop j = [] :=
          List.drop_eq_nil_of_le (by rw [docIds_length]; omega)
        simp [hd]
      · have hd : l1.docIds.drop i = [] :=
          List.drop_eq_nil_of_le (by rw [docIds_length]; omega)
        rw [hd]
        rfl

/-- C2: on posting lists with strictly ascending doc ids and valid skip
pointers, `intersectWithSkips` returns exactly the doc ids present in
both lists, in strictly ascending order (hence with no duplicates). -/
theorem intersectWithSkips_correct (l1 l2 : PostingList)
    (h1 : l1.docIds.Pairwise (· < ·)) (h2 : l2.docIds.Pairwise (· < ·))
    (v1 : l1.SkipsValid) (v2 : l2.SkipsValid) :
    intersectWithSkips l1 l2 =
        l1.docIds.filter (fun d => decide (d ∈ l2.docIds)) ∧
      (intersectWithSkips l1 l2).Pairwise (· < ·) := by
  have hmain := intersectGo_filter l1 l2 h1 h2 v1 v2
    (l1.postings.length + l2.postings.length) 0 0 (by omega)
  unfold intersectWithSkips
  simp only [List.drop_zero] at hmain
  refine ⟨hmain, ?_⟩
  rw [hmain]
  exact List.Pairwise.sublist (List.filter_sublist _) h1

/-- C2 witness: the theorem applied to concrete lists — the left list
holds doc ids 1..6 with skip pointers every two entries, the right list
holds 2, 4, 6 with no skip pointers. -/
theorem intersectWithSkips_correct_witness :
    intersectWithSkips
        (PostingList.mk [⟨1, 1, []⟩, ⟨2, 1, []⟩, ⟨3, 1, []⟩, ⟨4, 1, []⟩,
          ⟨5, 1, []⟩, ⟨6, 1, []⟩] [⟨0, 1⟩, ⟨2, 3⟩, ⟨4, 5⟩])
        (PostingList.mk [⟨2, 1, []⟩, ⟨4, 1, []⟩, ⟨6, 1, []⟩] []) =
      [2, 4, 6] := by
  have h := intersectWithSkips_correct
    (PostingList.mk [⟨1, 1, []⟩, ⟨2, 1, []⟩, ⟨3, 1, []⟩, ⟨4, 1, []⟩,
      ⟨5, 1, []⟩, ⟨6, 1, []⟩] [⟨0, 1⟩, ⟨2, 3⟩, ⟨4, 5⟩])
    (PostingList.mk [⟨2, 1, []⟩, ⟨4, 1, []⟩, ⟨6, 1, []⟩] [])
    (by decide) (by decide)
    (by
      intro sp hsp
      fin_cases hsp
      · exact ⟨by decide, by decide⟩
      · exact ⟨by decide, by decide⟩
      · exact ⟨by decide, by decide⟩)
    (by
      intro sp hsp
      fin_cases hsp)
  rw [h.1]
  decide

/-! #### Top-K heap vs. full sort (C4) -/

theorem takeWhile_length_le {α} (q : α → Bool) :
    ∀ (s : List α) (i : Nat) (hi : i < s.length),
      ¬ q (s.get ⟨i, hi⟩) = true → (s.takeWhile q).length ≤ i := by
  intro s
  induction s with
  | nil => intro i hi; exact absurd hi (Nat.not_lt_zero i)
  | cons a as ih =>
    intro i hi hq
    rw [List.takeWhile_cons]
    by_cases ha : q a = true
    · rw [if_pos ha]
      cases i with
      | zero => exact absurd ha hq
      | succ n =>
        simp only [List.length_cons]
        have := ih n (by simpa using hi) hq
        omega
    · rw [if_neg ha]
      exact Nat.zero_le i

theorem le_takeWhile_length {α} (q : α → Bool) :
    ∀ (s : List α) (i : Nat), i ≤ s.length →
      (∀ j (hjs : j < s.length), j < i → q (s.get ⟨j, hjs⟩) = true) →
      i ≤ (s.takeWhile q).length := by
  intro s
  induction s with
  | nil =>
    intro i hi _
    have : i = 0 := by simpa using hi
    subst this
    exact Nat.zero_le _
  | cons a as ih =>
    intro i hi hall
    cases i with
    | zero => exact Nat.zero_le _
    | succ n =>
      have ha : q a = true := hall 0 (by simp) (by omega)
      rw [List.takeWhile_cons, if_pos ha]
      simp only [List.length_cons]
      have := ih n (by simpa using hi)
        (fun j hjs hj => hall (j + 1) (by simpa using hjs) (by omega))
      omega

theorem dropWhile_head?_false {α} (q : α → Bool) (l : List α) (x : α)
    (h : (l.dropWhile q).head? = some x) : q x = false := by
  induction l with
  | nil => simp at h
  | cons y ys ih =>
    rw [List.dropWhile_cons] at h
    by_cases hy : q y = true
    · rw [if_pos hy] at h
      exact ih h
    · rw [if_neg hy] at h
      simp only [List.head?_cons, Option.some_inj] at h
      rw [← h]
      simpa using hy

/-- Inserting an element after a prefix everyone of which compares
strictly below it, in front of a rest whose head does not. -/
theorem orderedInsert_append_all_lt (c : Scored) (pre rest : List Scored)
    (hpre : ∀ x ∈ pre, ¬ pqLE c x)
    (hrest : ∀ y, rest.head? = some y → pqLE c y) :
    (pre ++ rest).orderedInsert pqLE c = pre ++ c :: rest := by
  induction pre with
  | nil =>
    cases rest with
    | nil => rfl
    | cons y ys =>
      have := hrest y rfl
      rw [List.nil_append, List.orderedInsert, if_pos this]
      rfl
  | cons p ps ih =>
    have hp := hpre p (List.mem_cons_self p ps)
    rw [List.cons_append, List.orderedInsert, if_neg hp,
      ih (fun x hx => hpre x (List.mem_cons_of_mem p hx))]
    rfl

/-- With pairwise distinct scores, insertion sort in the heap order is
strictly ascending by score. -/
theorem insertionSort_pqLE_strict (l : List Scored)
    (hd : l.Pairwise fun a b => a.score ≠ b.score) :
    (l.insertionSort pqLE).Pairwise scoreLt := by
  have hs : (l.insertionSort pqLE).Pairwise pqLE :=
    List.sorted_insertionSort pqLE l
  have hperm : (l.insertionSort pqLE).Perm l := List.perm_insertionSort pqLE l
  have hne : (l.insertionSort pqLE).Pairwise (fun a b => a.score ≠ b.score) :=
    (hperm.pairwise_iff (fun hx => Ne.symm hx)).mpr hd
  refine (hs.and hne).imp ?_
  rintro a b ⟨hle, hneq⟩
  unfold pqLE pqLT at hle
  unfold scoreLt
  push_neg at hle
  rcases lt_trichotomy a.score b.score with hc | hc | hc
  · exact hc
  · exact absurd hc hneq
  · exact absurd hc hle.1.not_lt

/-- With pairwise distinct scores, insertion sort in the full-sort order
is strictly descending by score. -/
theorem insertionSort_scoreDesc_strict (l : List Scored)
    (hd : l.Pairwise fun a b => a.score ≠ b.score) :
    (l.insertionSort scoreDesc).Pairwise scoreGt := by
  have hs : (l.insertionSort scoreDesc).Pairwise scoreDesc :=
    List.sorted_insertionSort scoreDesc l
  have hperm : (l.insertionSort scoreDesc).Perm l :=
    List.perm_insertionSort scoreDesc l
  have hne : (l.insertionSort scoreDesc).Pairwise (fun a b => a.score ≠ b.score) :=
    (hperm.pairwise_iff (fun hx => Ne.symm hx)).mpr hd
  refine (hs.and hne).imp ?_
  rintro a b ⟨hle, hneq⟩
  unfold scoreDesc at hle
  unfold scoreGt
  rcases lt_or_eq_of_le hle with hc | hc
  · exact hc
  · exact absurd hc.symm hneq

/-- With pairwise distinct scores, sorting descending equals the reverse
of sorting in the heap order: both are the unique score-sorted
arrangement. -/
theorem insertionSort_desc_eq_reverse (l : List Scored)
    (hd : l.Pairwise fun a b => a.score ≠ b.score) :
    l.insertionSort scoreDesc = (l.insertionSort pqLE).reverse := by
  have hperm : (l.insertionSort scoreDesc).Perm ((l.insertionSort pqLE).reverse) :=
    (List.perm_insertionSort scoreDesc l).trans
      ((List.perm_insertionSort pqLE l).symm.trans
        (List.reverse_perm _).symm)
  have h1 : (l.insertionSort scoreDesc).Sorted scoreGt :=
    insertionSort_scoreDesc_strict l hd
  have h2 : ((l.insertionSort pqLE).reverse).Sorted scoreGt :=
    (List.pairwise_reverse).mpr (insertionSort_pqLE_strict l hd)
  exact List.eq_of_perm_of_sorted hperm h1 h2

/-- Sorting after appending one element (distinct scores) is an ordered
insert into the sorted list. -/
theorem insertionSort_append_singleton (l : List Scored) (c : Scored)
    (hd : (l ++ [c]).Pairwise fun a b => a.score ≠ b.score) :
    (l ++ [c]).insertionSort pqLE = (l.insertionSort pqLE).orderedInsert pqLE c := by
  have hdl : l.Pairwise fun a b => a.score ≠ b.score :=
    hd.sublist (List.sublist_append_left l [c])
  have hperm : ((l ++ [c]).insertionSort pqLE).Perm
      ((l.insertionSort pqLE).orderedInsert pqLE c) := by
    refine (List.perm_insertionSort pqLE _).trans ?_
    refine (List.perm_append_singleton c l).trans ?_
    refine (List.Perm.cons c (List.perm_insertionSort pqLE l).symm).trans ?_
    exact (List.perm_orderedInsert pqLE c _).symm
  have h1 : ((l ++ [c]).insertionSort pqLE).Sorted scoreLt :=
    insertionSort_pqLE_strict _ hd
  have h2 : ((l.insertionSort pqLE).orderedInsert pqLE c).Sorted scoreLt := by
    have hsorted : ((l.insertionSort pqLE).orderedInsert pqLE c).Pairwise pqLE :=
      List.Sorted.orderedInsert c _ (List.sorted_insertionSort pqLE l)
    have hpm : ((l.insertionSort pqLE).orderedInsert pqLE c).Perm (l ++ [c]) := by
      refine (List.perm_orderedInsert pqLE c _).trans ?_
      refine (List.Perm.cons c (List.perm_insertionSort pqLE l)).trans ?_
      exact (List.perm_append_singleton c l).symm
    have hne : ((l.insertionSort pqLE).orderedInsert pqLE c).Pairwise
        (fun a b => a.score ≠ b.score) :=
      (hpm.pairwise_iff (fun hx => Ne.symm hx)).mpr hd
    refine (hsorted.and hne).imp ?_
    rintro a b ⟨hle, hneq⟩
    unfold pqLE pqLT at hle
    unfold scoreLt
    push_neg at hle
    rcases lt_trichotomy a.score b.score with hc | hc | hc
    · exact hc
    · exact absurd hc hneq
    · exact absurd hc hle.1.not_lt
  exact List.eq_of_perm_of_sorted hperm h1 h2

/-- `orderedInsert` splits at the first element the new one does not
beat. -/
theorem orderedInsert_split (c : Scored) (s : List Scored) :
    s.orderedInsert pqLE c =
      (s.takeWhile fun b => decide (¬ pqLE c b)) ++
        c :: (s.dropWhile fun b => decide (¬ pqLE c b)) := by
  induction s with
  | nil => rfl
  | cons a as ih =>
    by_cases ha : pqLE c a
    · have hq : (decide (¬ pqLE c a)) = false := by simp [ha]
      rw [List.orderedInsert, if_pos ha, List.takeWhile_cons, hq,
        List.dropWhile_cons, hq]
      rfl
    · have hq : (decide (¬ pqLE c a)) = true := by simp [ha]
      rw [List.orderedInsert, if_neg ha, List.takeWhile_cons, hq,
        List.dropWhile_cons, hq, ih]
      rfl

/-- The heap step on a full or not-yet-full heap, stated against the
canonical sorted form: the heap after the step is the top-K suffix of the
sorted listing with the new element inserted. -/
theorem heapStep_drop (K : Nat) (s : List Scored) (c : Scored)
    (hs : s.Pairwise scoreLt)
    (hc : ∀ x ∈ s, x.score ≠ c.score)
    (hpos : 0 < c.score) :
    heapStep K (s.drop (s.length - K)) c =
      (s.orderedInsert pqLE c).drop (s.length + 1 - K) := by
  rcases Nat.eq_zero_or_pos K with hK0 | hKpos
  · subst hK0
    rw [heapStep_zero]
    have h1 : s.drop (s.length - 0) = [] := List.drop_eq_nil_of_le (by omega)
    have h2 : (s.orderedInsert pqLE c).drop (s.length + 1 - 0) = [] := by
      apply List.drop_eq_nil_of_le
      rw [List.orderedInsert_length]
      omega
    rw [h1, h2]
  rcases Nat.lt_or_ge s.length K with hnK | hKn
  · have h0 : s.length - K = 0 := by omega
    have h1 : s.length + 1 - K = 0 := by omega
    rw [h0, h1, List.drop_zero, List.drop_zero]
    unfold heapStep
    rw [if_pos hpos, if_pos (Or.inl (by omega))]
    unfold bpqPush
    rw [if_neg (by omega), if_pos hnK]
  · have hnk : s.length - K < s.length := by omega
    have hdropc : s.drop (s.length - K) =
        s.get ⟨s.length - K, hnk⟩ :: s.drop (s.length - K + 1) := by
      rw [List.drop_eq_getElem_cons hnk]
      rfl
    have hlen : (s.drop (s.length - K)).length = K := by
      rw [List.length_drop]
      omega
    have hmin : minScore (s.drop (s.length - K)) =
        (s.get ⟨s.length - K, hnk⟩).score := by
      rw [hdropc]
      rfl
    have hne := hc _ (List.get_mem s _ hnk)
    have hmemtw : ∀ x ∈ s.takeWhile (fun b => decide (¬ pqLE c b)), ¬ pqLE c x := by
      intro x hx
      have := List.mem_takeWhile_imp hx
      simpa using this
    have hheadd : ∀ y,
        (s.dropWhile (fun b => decide (¬ pqLE c b))).head? = some y → pqLE c y := by
      intro y hy
      have := dropWhile_head?_false _ _ _ hy
      simpa using this
    have hsplit := List.takeWhile_append_dropWhile
      (fun b => decide (¬ pqLE c b)) s
    rcases lt_or_gt_of_ne hne with hPush | hKeep
    · -- the heap's minimum scores below the candidate: replace the top
      unfold heapStep
      rw [if_pos hpos, if_pos (Or.inr (by rw [hmin]; exact hPush))]
      unfold bpqPush
      rw [if_neg (by omega), if_neg (by rw [hlen]; exact lt_irrefl K)]
      have htop : (s.drop (s.length - K)).headD ⟨0, 0⟩ =
          s.get ⟨s.length - K, hnk⟩ := by
        rw [hdropc]
        rfl
      rw [htop, if_pos (show pqGT c (s.get ⟨s.length - K, hnk⟩) from Or.inl hPush)]
      have htail : (s.drop (s.length - K)).tail = s.drop (s.length - K + 1) := by
        rw [hdropc]
        rfl
      rw [htail]
      have hL : s.length - K + 1 ≤
          (s.takeWhile (fun b => decide (¬ pqLE c b))).length := by
        apply le_takeWhile_length
        · omega
        · intro j hjs hj
          have hjle : (s.get ⟨j, hjs⟩).score ≤ (s.get ⟨s.length - K, hnk⟩).score := by
            rcases Nat.lt_or_ge j (s.length - K) with hc2 | hc2
            · exact le_of_lt (List.pairwise_iff_getElem.mp hs j _ hjs hnk hc2)
            · have hje : j = s.length - K := by omega
              subst hje
              exact le_refl _
          have hlt : (s.get ⟨j, hjs⟩).score < c.score := lt_of_le_of_lt hjle hPush
          simp only [decide_eq_true_eq]
          exact fun hcon => hcon (Or.inl hlt)
      rw [orderedInsert_split c s, List.drop_append_eq_append_drop]
      set tw := s.takeWhile (fun b => decide (¬ pqLE c b)) with htw
      set dw := s.dropWhile (fun b => decide (¬ pqLE c b)) with hdw
      have hz : s.length + 1 - K - tw.length = 0 := by omega
      rw [hz, List.drop_zero]
      have hsd : s.drop (s.length - K + 1) = tw.drop (s.length - K + 1) ++ dw := by
        set m := s.length - K + 1 with hm
        conv_lhs => rw [← hsplit]
        rw [List.drop_append_eq_append_drop]
        have hz2 : m - tw.length = 0 := by omega
        rw [hz2, List.drop_zero]
      rw [hsd, orderedInsert_append_all_lt c _ _
        (fun x hx => hmemtw x (List.drop_subset _ _ hx)) hheadd]
      have hidx : s.length - K + 1 = s.length + 1 - K := by omega
      rw [hidx]
    · -- the candidate scores below the heap's minimum: heap unchanged
      unfold heapStep
      rw [if_pos hpos]
      have hguard : ¬ (¬ K ≤ (s.drop (s.length - K)).length ∨
          minScore (s.drop (s.length - K)) < c.score) := by
        rintro (hg | hg)
        · rw [hlen] at hg
          exact hg (le_refl K)
        · rw [hmin] at hg
          exact absurd hg (lt_asymm hKeep)
      rw [if_neg hguard]
      have hle : pqLE c (s.get ⟨s.length - K, hnk⟩) := by
        rintro (hg | ⟨hg, -⟩)
        · exact absurd hg (lt_asymm hKeep)
        · exact hne hg
      have hL : (s.takeWhile (fun b => decide (¬ pqLE c b))).length ≤
          s.length - K := by
        apply takeWhile_length_le _ s (s.length - K) hnk
        simp only [decide_eq_true_eq]
        exact not_not_intro hle
      rw [orderedInsert_split c s, List.drop_append_eq_append_drop]
      set tw := s.takeWhile (fun b => decide (¬ pqLE c b)) with htw
      set dw := s.dropWhile (fun b => decide (¬ pqLE c b)) with hdw
      have htw0 : tw.drop (s.length + 1 - K) = [] :=
        List.drop_eq_nil_of_le (by omega)
      rw [htw0, List.nil_append]
      have hsucc : s.length + 1 - K - tw.length =
          (s.length - K - tw.length) + 1 := by omega
      rw [hsucc, List.drop_succ_cons]
      set m := s.length - K with hm
      conv_lhs => rw [← hsplit]
      rw [List.drop_append_eq_append_drop]
      rw [show tw.drop m = [] from List.drop_eq_nil_of_le (by omega),
        List.nil_append]

/-- The state of the heap path after consuming a candidate list: the
top-K suffix of the candidates' positive-score entries sorted ascending
in the heap order (all scores distinct). -/
theorem heapRun_eq_drop (K : Nat) :
    ∀ cs : List Scored, (cs.Pairwise fun a b => a.score ≠ b.score) →
      cs.foldl (heapStep K) [] =
        ((cs.filter fun c => decide (0 < c.score)).insertionSort pqLE).drop
          ((cs.filter fun c => decide (0 < c.score)).length - K) := by
  intro cs
  induction cs using List.reverseRecOn with
  | nil => intro _; simp
  | append_singleton l c ih =>
    intro hd
    have hdl : l.Pairwise fun a b => a.score ≠ b.score :=
      hd.sublist (List.sublist_append_left l [c])
    rw [List.foldl_append, List.foldl_cons, List.foldl_nil, ih hdl,
      List.filter_append]
    by_cases hpos : 0 < c.score
    · have hfc : List.filter (fun c => decide (0 < c.score)) [c] = [c] := by
        simp [hpos]
      rw [hfc]
      have hdf : ((l.filter fun c => decide (0 < c.score)) ++ [c]).Pairwise
          (fun a b => a.score ≠ b.score) :=
        hd.sublist ((List.filter_sublist l).append (List.Sublist.refl [c]))
      have hsorted : ((l.filter fun c => decide (0 < c.score)).insertionSort
          pqLE).Pairwise scoreLt :=
        insertionSort_pqLE_strict _ (hdf.sublist (List.sublist_append_left _ [c]))
      have hcs : ∀ x ∈ (l.filter fun c => decide (0 < c.score)).insertionSort pqLE,
          x.score ≠ c.score := by
        intro x hx
        have hxl : x ∈ l.filter fun c => decide (0 < c.score) :=
          (List.perm_insertionSort pqLE _).subset hx
        have := List.pairwise_append.mp hdf
        exact this.2.2 x hxl c (List.mem_singleton_self c)
      have hlen : ((l.filter fun c => decide (0 < c.score)).insertionSort
          pqLE).length = (l.filter fun c => decide (0 < c.score)).length :=
        List.length_insertionSort _ _
      have hidx : (l.filter fun c => decide (0 < c.score)).length - K =
          ((l.filter fun c => decide (0 < c.score)).insertionSort pqLE).length - K := by
        rw [hlen]
      rw [hidx, heapStep_drop K _ c hsorted hcs hpos,
        insertionSort_append_singleton _ c hdf]
      have hidx2 : ((l.filter fun c => decide (0 < c.score)).insertionSort
            pqLE).length + 1 - K =
          ((l.filter fun c => decide (0 < c.score)) ++ [c]).length - K := by
        rw [hlen, List.length_append]
        simp
      rw [hidx2]
    · have hfc : List.filter (fun c => decide (0 < c.score)) [c] = [] := by
        simp [hpos]
      rw [hfc, List.append_nil]
      have hskip : heapStep K ((List.insertionSort pqLE
          (l.filter fun c => decide (0 < c.score))).drop
            ((l.filter fun c => decide (0 < c.score)).length - K)) c =
          (List.insertionSort pqLE (l.filter fun c => decide (0 < c.score))).drop
            ((l.filter fun c => decide (0 < c.score)).length - K) := by
        unfold heapStep
        rw [if_neg hpos]
      rw [hskip]

/-- C4 counterexample: with max_results = 2 and candidates
(doc 5, score 1), (doc 3, score 1), (doc 1, score 2) in that order, the
heap path keeps docs 1 and 3 (the full heap evicts the tied posting with
the larger doc id and the engine guard blocks the later tied push), while
the full-sort path keeps docs 1 and 5 (stable sort leaves tied scores in
candidate order) — different multisets of (doc_id, score) pairs. -/
theorem topk_heap_sort_claim_false :
    heapSelect 2 [⟨5, 1⟩, ⟨3, 1⟩, ⟨1, 2⟩] = [⟨1, 2⟩, ⟨3, 1⟩] ∧
    sortSelect 2 [⟨5, 1⟩, ⟨3, 1⟩, ⟨1, 2⟩] = [⟨1, 2⟩, ⟨5, 1⟩] ∧
    (heapSelect 2 [⟨5, 1⟩, ⟨3, 1⟩, ⟨1, 2⟩] : Multiset Scored) ≠
      (sortSelect 2 [⟨5, 1⟩, ⟨3, 1⟩, ⟨1, 2⟩] : Multiset Scored) := by
  refine ⟨by decide, by decide, by decide⟩

/-- C4 (amended): when no two candidates carry equal scores, the heap
path and the full-sort path return the same multiset of (doc_id, score)
pairs, for every capacity K. -/
theorem topk_heap_matches_full_sort (K : Nat) (cs : List Scored)
    (hd : cs.Pairwise fun a b => a.score ≠ b.score) :
    (heapSelect K cs : Multiset Scored) = (sortSelect K cs : Multiset Scored) := by
  have hdf : (cs.filter fun c => decide (0 < c.score)).Pairwise
      (fun a b => a.score ≠ b.score) :=
    hd.sublist (List.filter_sublist cs)
  unfold heapSelect sortSelect
  rw [heapRun_eq_drop K cs hd, insertionSort_desc_eq_reverse _ hdf,
    List.take_reverse, List.length_insertionSort]

/-- C4 witness: the amended theorem applied to three candidates with
distinct scores. -/
theorem topk_heap_matches_full_sort_witness :
    (heapSelect 2 [⟨1, 3⟩, ⟨2, 1⟩, ⟨3, 2⟩] : Multiset Scored) =
      (sortSelect 2 [⟨1, 3⟩, ⟨2, 1⟩, ⟨3, 2⟩] : Multiset Scored) :=
  topk_heap_matches_full_sort 2 _ (by decide)

/-! #### TF-IDF scoring (C7) -/

/-- The scoring fold over terms whose (defaulted) document frequency is
never zero stays finite and accumulates the per-term products. -/
theorem tfIdf_foldl (docText : List Char) (stats : RankStats) :
    ∀ (terms : List String) (a : ℝ), (∀ t ∈ terms, dfLookup stats t ≠ 0) →
      List.foldl (tfIdfStep docText stats) ((a : ℝ) : EReal) terms =
        (((a + (terms.map fun t =>
            Real.log (1 + (termFreq docText t : ℝ)) *
              Real.log ((stats.total_docs : ℝ) / (dfLookup stats t : ℝ))).sum) :
          ℝ) : EReal) := by
  intro terms
  induction terms with
  | nil =>
    intro a _
    simp
  | cons t ts ih =>
    intro a hdf
    rw [List.foldl_cons, List.map_cons, List.sum_cons]
    have hdft : dfLookup stats t ≠ 0 := hdf t (List.mem_cons_self t ts)
    by_cases htf : 0 < termFreq docText t
    · have hstep : tfIdfStep docText stats ((a : ℝ) : EReal) t =
          (((a + Real.log (1 + (termFreq docText t : ℝ)) *
            Real.log ((stats.total_docs : ℝ) / (dfLookup stats t : ℝ))) : ℝ) :
              EReal) := by
        unfold tfIdfStep tfIdfTermContribution
        rw [if_pos htf, if_neg hdft, ← EReal.coe_add]
      rw [hstep, ih _ (fun u hu => hdf u (List.mem_cons_of_mem t hu))]
      rw [← add_assoc]
    · have hstep : tfIdfStep docText stats ((a : ℝ) : EReal) t =
          ((a : ℝ) : EReal) := by
        unfold tfIdfStep
        rw [if_neg htf]
      have htf0 : termFreq docText t = 0 := by omega
      rw [hstep, ih _ (fun u hu => hdf u (List.mem_cons_of_mem t hu)), htf0]
      norm_num

/-- C7 counterexample: query term "ca", document text "cat", stats
recording total_docs = 2 and df("ca") = 0.  The ranker finds tf = 1 > 0
(substring scan) and computes `log(2.0 / 0)`, i.e. IEEE `+∞` — the score
is `⊤`, not the claim's empty sum 0.  Additionally, the scan counts
non-overlapping occurrences: "aa" occurs twice in "aaa" as a substring
but the scan counts 1. -/
theorem tfIdf_df_zero_claim_false :
    tfIdfScore ["ca"] ("cat".toList) ⟨2, [("ca", 0)]⟩ = ⊤ ∧
    specTfIdfScore ["ca"] ("cat".toList) ⟨2, [("ca", 0)]⟩ = 0 ∧
    (⊤ : EReal) ≠ ((0 : ℝ) : EReal) ∧
    countOccur ("aaa".toList) ("aa".toList) = 1 ∧
    specSubstrCount ("aaa".toList) ("aa".toList) = 2 := by
  refine ⟨?_, ?_, ?_, by decide, by decide⟩
  · have htf : termFreq ("cat".toList) "ca" = 1 := by decide
    have hdf : dfLookup ⟨2, [("ca", 0)]⟩ "ca" = 0 := by decide
    unfold tfIdfScore
    rw [if_neg (by decide)]
    rw [List.foldl_cons, List.foldl_nil]
    unfold tfIdfStep
    rw [htf, hdf]
    unfold tfIdfTermContribution
    rw [if_pos (by norm_num), if_pos rfl]
    simp
  · unfold specTfIdfScore
    rw [show ((["ca"].filter fun t =>
        decide (1 ≤ dfRecorded ⟨2, [("ca", 0)]⟩ t))) = [] from by decide]
    simp
  · simp

/-- C7 (amended): when every query term's document frequency, as the
ranker reads it (the recorded value, defaulting to 1 when absent), is at
least 1 and the index is non-empty, the score equals the sum over all
query terms of ln(1 + tf) · ln(total_docs / df), where tf is the number
of non-overlapping case-insensitive occurrences found by the scan (terms
with tf = 0 contribute ln 1 = 0); a term with recorded df = 0 and tf ≥ 1
instead drives the whole score to IEEE +∞. -/
theorem tfIdfScore_eq_sum (terms : List String) (docText : List Char)
    (stats : RankStats) (hN : 0 < stats.total_docs)
    (hdf : ∀ t ∈ terms, dfLookup stats t ≠ 0) :
    tfIdfScore terms docText stats =
      (((terms.map fun t =>
          Real.log (1 + (termFreq docText t : ℝ)) *
            Real.log ((stats.total_docs : ℝ) / (dfLookup stats t : ℝ))).sum :
        ℝ) : EReal) := by
  unfold tfIdfScore
  rw [if_neg (by omega)]
  have h := tfIdf_foldl docText stats terms 0 hdf
  simpa using h

/-- C7 witness: one term, one document, df = 1, total_docs = 1 — the
contribution is ln 2 · ln 1 = 0. -/
theorem tfIdfScore_eq_sum_witness :
    tfIdfScore ["x"] ("x".toList) ⟨1, [("x", 1)]⟩ = ((0 : ℝ) : EReal) := by
  have h := tfIdfScore_eq_sum ["x"] ("x".toList) ⟨1, [("x", 1)]⟩ (by decide)
    (by
      intro t ht
      fin_cases ht
      decide)
  have h1 : termFreq ("x".toList) "x" = 1 := by decide
  have h2 : dfLookup ⟨1, [("x", 1)]⟩ "x" = 1 := by decide
  rw [h, List.map_cons, List.map_nil, List.sum_cons, List.sum_nil, h1, h2]
  norm_num

end Rtrv
